import Mathlib

/-!
Verification of the streaming text-to-speech pipeline of the say-server
example (examples/say-server/server.py).

The development shallowly embeds the pipeline:

- `AudioChunkData`, `TTSQueueState` mirror the dataclasses of the same
  names; the `asyncio.Queue` incoming-text channel is modelled by
  `AsyncQueue`, whose `put_nowait` fails exactly when the queue is full
  (a queue built with `maxsize = 0` is unbounded, as in asyncio).
- The tool entry points `add_tts_text`, `end_tts_queue`,
  `cancel_tts_queue`, `poll_tts_audio` are embedded as pure functions on
  an association-list registry, returning structured results in place of
  the JSON payloads of the source.
- `StreamingTextChunker` and its methods are embedded over an abstract
  `Tokenizer` (the SentencePiece tokenizer is an external collaborator);
  the unbounded extraction loop takes explicit fuel.
- The generation worker `_run_tts_queue` / `_process_tts_chunk` is
  embedded with the synthesis backend abstracted as a fallible function.

Machine floats (chunk durations) are modelled as naturals; they play no
role in any property proved here.
-/

/-- Audio chunk with timing metadata (dataclass `AudioChunkData`). -/
structure AudioChunkData where
  index : Nat
  audio_base64 : String
  char_start : Nat
  char_end : Nat
  duration_ms : Nat
deriving DecidableEq, Repr

/-- Queue status: the `status` literal of `TTSQueueState`. -/
inductive TTSStatus where
  | active
  | complete
  | error
deriving DecidableEq, Repr

/-- Model of `asyncio.Queue`: items in FIFO order plus the `maxsize`
bound fixed at construction. `none` items model the EOF sentinel. -/
structure AsyncQueue where
  maxsize : Nat
  items : List (Option String)
deriving DecidableEq, Repr

/-- Model of `asyncio.Queue.full`: true when a positive `maxsize` has
been reached. A queue with `maxsize = 0` is never full. -/
def AsyncQueue.full (q : AsyncQueue) : Bool :=
  decide (0 < q.maxsize) && decide (q.maxsize ≤ q.items.length)

/-- Model of `asyncio.Queue.put_nowait`: `none` models the `QueueFull`
exception. -/
def AsyncQueue.put_nowait (q : AsyncQueue) (x : Option String) :
    Option AsyncQueue :=
  if q.full then none else some { q with items := q.items ++ [x] }

/-- State for a TTS generation queue (dataclass `TTSQueueState`). The
`lock` and `task` handles of the source carry no data relevant here. -/
structure TTSQueueState where
  id : String
  voice : String
  sample_rate : Nat
  status : TTSStatus
  error_message : Option String
  text_queue : AsyncQueue
  end_signaled : Bool
  audio_chunks : List AudioChunkData
  chunks_delivered : Nat
deriving DecidableEq, Repr

/-- A fresh queue as built by `create_tts_queue`: status active, the
default `asyncio.Queue()` (hence `maxsize = 0`), no chunks, cursor 0. -/
def mkTTSQueueState (id voice : String) (sample_rate : Nat) : TTSQueueState :=
  { id := id
    voice := voice
    sample_rate := sample_rate
    status := TTSStatus.active
    error_message := none
    text_queue := { maxsize := 0, items := [] }
    end_signaled := false
    audio_chunks := []
    chunks_delivered := 0 }

/-- The global `tts_queues` dict, as an association list. -/
abbrev Registry := List (String × TTSQueueState)

/-- Dictionary lookup (`tts_queues.get`). -/
def regGet : Registry → String → Option TTSQueueState
  | [], _ => none
  | (k, v) :: rest, qid => if k = qid then some v else regGet rest qid

/-- Dictionary insert or update (`tts_queues[qid] = state`). -/
def regSet : Registry → String → TTSQueueState → Registry
  | [], qid, s => [(qid, s)]
  | (k, v) :: rest, qid, s =>
    if k = qid then (k, s) :: rest else (k, v) :: regSet rest qid s

/-- Dictionary removal (`tts_queues.pop(qid, None)`), record part. A
Python dict holds each key at most once, so removal drops every entry
of the association list carrying the key. -/
def regRemove : Registry → String → Registry
  | [], _ => []
  | (k, v) :: rest, qid =>
    if k = qid then regRemove rest qid else (k, v) :: regRemove rest qid

/-- Registration performed by `create_tts_queue` once the model is
available: allocate a fresh queue record under `queue_id`. -/
def create_tts_queue (reg : Registry) (queue_id voice : String)
    (sample_rate : Nat) : Registry :=
  regSet reg queue_id (mkTTSQueueState queue_id voice sample_rate)

/-- Structured result of `add_tts_text` in place of its JSON strings. -/
inductive AddTextResult where
  | queued
  | notFound
  | alreadyEnded
  | queueFull
deriving DecidableEq, Repr

/-- Embedding of the tool `add_tts_text`. -/
def add_tts_text (reg : Registry) (queue_id text : String) :
    Registry × AddTextResult :=
  match regGet reg queue_id with
  | none => (reg, AddTextResult.notFound)
  | some s =>
    if s.end_signaled then (reg, AddTextResult.alreadyEnded)
    else
      match s.text_queue.put_nowait (some text) with
      | none => (reg, AddTextResult.queueFull)
      | some q =>
        (regSet reg queue_id { s with text_queue := q }, AddTextResult.queued)

/-- Structured result of `end_tts_queue`. -/
inductive EndResult where
  | ended
  | already_ended
  | notFound
deriving DecidableEq, Repr

/-- Embedding of the tool `end_tts_queue`: sets `end_signaled`, then
enqueues the EOF sentinel, ignoring a full queue. -/
def end_tts_queue (reg : Registry) (queue_id : String) :
    Registry × EndResult :=
  match regGet reg queue_id with
  | none => (reg, EndResult.notFound)
  | some s =>
    if s.end_signaled then (reg, EndResult.already_ended)
    else
      let s1 := { s with end_signaled := true }
      let s2 :=
        match s1.text_queue.put_nowait none with
        | some q => { s1 with text_queue := q }
        | none => s1
      (regSet reg queue_id s2, EndResult.ended)

/-- Structured result of `cancel_tts_queue`. -/
inductive CancelResult where
  | cancelled
  | notFound
deriving DecidableEq, Repr

/-- Embedding of the tool `cancel_tts_queue`: pops the record from the
registry (the popped record is mutated locally in the source but never
re-registered, so only the removal is observable afterwards). -/
def cancel_tts_queue (reg : Registry) (queue_id : String) :
    Registry × CancelResult :=
  match regGet reg queue_id with
  | none => (reg, CancelResult.notFound)
  | some _ => (regRemove reg queue_id, CancelResult.cancelled)

/-- Structured result of `poll_tts_audio`. -/
inductive PollResult where
  | notFound
  | ok (chunks : List AudioChunkData) (done : Bool) (status : TTSStatus)
deriving DecidableEq, Repr

/-- The per-state core of `poll_tts_audio`: slice the undelivered
chunks, advance the cursor to the chunk count, then compute `done`
exactly as the source does (after the cursor update). Returns the
delivered chunks, the updated state and the `done` flag. -/
def pollPure (s : TTSQueueState) :
    List AudioChunkData × TTSQueueState × Bool :=
  let new_chunks := s.audio_chunks.drop s.chunks_delivered
  let s2 := { s with chunks_delivered := s.audio_chunks.length }
  let done := decide (s2.status = TTSStatus.complete) &&
    decide (s2.audio_chunks.length ≤ s2.chunks_delivered)
  (new_chunks, s2, done)

/-- Embedding of the tool `poll_tts_audio`. The delayed 60s cleanup it
schedules touches the registry only after the grace period and is not
part of the synchronous call modelled here. -/
def poll_tts_audio (reg : Registry) (queue_id : String) :
    Registry × PollResult :=
  match regGet reg queue_id with
  | none => (reg, PollResult.notFound)
  | some s =>
    let r := pollPure s
    (regSet reg queue_id r.2.1, PollResult.ok r.1 r.2.2 r.2.1.status)

/-- Python `str.strip()` on a character list: drop whitespace from both
ends. -/
def pyStripList (l : List Char) : List Char :=
  ((l.dropWhile Char.isWhitespace).reverse.dropWhile Char.isWhitespace).reverse

/-- Python `str.strip()` on strings. -/
def pyStrip (s : String) : String := String.mk (pyStripList s.data)

/-- Abstract interface of the SentencePiece tokenizer consumed by the
chunker (an external collaborator of the pipeline): encode a string to
token ids, decode a token id slice back to text, and the cached set of
end-of-sentence token ids. -/
structure Tokenizer where
  encode : String → List Nat
  decode : List Nat → String
  eos_tokens : List Nat

/-- The class `StreamingTextChunker`: tokenizer handle, the two token
thresholds and the current text buffer. -/
structure StreamingTextChunker where
  tokenizer : Tokenizer
  max_tokens : Nat
  min_tokens : Nat
  buffer : String

/-- Method `_ends_with_sentence_boundary`: the token list is nonempty
and its last token is an end-of-sentence token. -/
def StreamingTextChunker.ends_with_sentence_boundary
    (c : StreamingTextChunker) (tokens : List Nat) : Bool :=
  match tokens.getLast? with
  | none => false
  | some t => c.tokenizer.eos_tokens.contains t

/-- The boundary-collecting loop of `_find_best_split`: positions
immediately after an end-of-sentence token. `i` is the position of the
head of the remaining list, `prev` records whether the previous token
was an end-of-sentence token. -/
def boundariesGo (eos : List Nat) : Nat → Bool → List Nat → List Nat
  | _, _, [] => []
  | i, prev, t :: rest =>
    if eos.contains t then boundariesGo eos (i + 1) true rest
    else if prev then i :: boundariesGo eos (i + 1) false rest
    else boundariesGo eos (i + 1) false rest

/-- All sentence boundaries of a token list, including the end of the
list when it ends with sentence punctuation (`_find_best_split`). -/
def sentenceBoundaries (eos : List Nat) (tokens : List Nat) : List Nat :=
  let bs := boundariesGo eos 0 false tokens
  match tokens.getLast? with
  | none => bs
  | some t => if eos.contains t then bs ++ [tokens.length] else bs

/-- The boundary-selection loop of `_find_best_split`: take the last
boundary not exceeding `maxT`; if the first boundary already exceeds
`maxT`, take it. `best = 0` encodes that no boundary was taken yet. -/
def bestBoundaryGo (maxT : Nat) : List Nat → Nat → Nat
  | [], best => best
  | b :: rest, best =>
    if b ≤ maxT then bestBoundaryGo maxT rest b
    else if best = 0 then b
    else best

/-- Method `_find_best_split`. -/
def StreamingTextChunker.find_best_split (c : StreamingTextChunker)
    (tokens : List Nat) (force_emit : Bool) : Nat :=
  let boundaries := sentenceBoundaries c.tokenizer.eos_tokens tokens
  if boundaries.isEmpty then
    if c.max_tokens ≤ tokens.length then c.max_tokens
    else if force_emit then tokens.length else 0
  else bestBoundaryGo c.max_tokens boundaries 0

/-- Method `_try_extract_chunk`: try to extract one chunk from the
buffer, returning the emitted text and the updated chunker. -/
def StreamingTextChunker.try_extract_chunk (c : StreamingTextChunker)
    (force_emit : Bool) : Option (String × StreamingTextChunker) :=
  let text := pyStrip c.buffer
  if text = "" then none
  else
    let tokens := c.tokenizer.encode text
    let num_tokens := tokens.length
    if num_tokens < c.min_tokens ∧ force_emit = false then none
    else if num_tokens < c.max_tokens ∧ force_emit = false then
      if c.min_tokens ≤ num_tokens ∧
          c.ends_with_sentence_boundary tokens = true then
        some (text, { c with buffer := "" })
      else none
    else
      let split_idx := c.find_best_split tokens force_emit
      if split_idx = 0 then
        if force_emit then some (text, { c with buffer := "" }) else none
      else
        let chunk_text := c.tokenizer.decode (tokens.take split_idx)
        let remaining_text := c.tokenizer.decode (tokens.drop split_idx)
        some (pyStrip chunk_text, { c with buffer := remaining_text })

/-- The drain loop of `_extract_ready_chunks`, with explicit fuel in
place of the unbounded `while`. The source passes
`force_emit and not chunks`, so forcing applies to the first extraction
only. -/
def extractGo : Nat → StreamingTextChunker → Bool →
    List String × StreamingTextChunker
  | 0, c, _ => ([], c)
  | Nat.succ fuel, c, force =>
    match c.try_extract_chunk force with
    | none => ([], c)
    | some (ch, c2) =>
      let r := extractGo fuel c2 false
      (ch :: r.1, r.2)

/-- Method `_extract_ready_chunks`. -/
def StreamingTextChunker.extract_ready_chunks (c : StreamingTextChunker)
    (force_emit : Bool) (fuel : Nat) : List String × StreamingTextChunker :=
  extractGo fuel c force_emit

/-- Method `add_text`: append to the buffer, then drain ready chunks. -/
def StreamingTextChunker.add_text (c : StreamingTextChunker)
    (text : String) (fuel : Nat) : List String × StreamingTextChunker :=
  ({ c with buffer := c.buffer ++ text }).extract_ready_chunks false fuel

/-- Method `flush`: force emission of everything still buffered. -/
def StreamingTextChunker.flush (c : StreamingTextChunker) (fuel : Nat) :
    List String × StreamingTextChunker :=
  if pyStrip c.buffer = "" then ([], c)
  else
    let r := c.extract_ready_chunks true fuel
    if pyStrip r.2.buffer = "" then r
    else (r.1 ++ [pyStrip r.2.buffer], { r.2 with buffer := "" })

/-- The synthesis backend as seen by `_process_tts_chunk`: from a text
chunk to a base64 audio payload and a duration, or an exception carrying
its message. -/
abbrev Synth := String → Except String (String × Nat)

/-- Embedding of `_process_tts_chunk`: synthesize one text chunk and
append the resulting `AudioChunkData` with the running index and the
half-open character range starting at `char_offset`. -/
def process_tts_chunk (synth : Synth) (s : TTSQueueState) (text : String)
    (chunk_index char_offset : Nat) : Except String TTSQueueState :=
  match synth text with
  | Except.error e => Except.error e
  | Except.ok (audio, dur) =>
    Except.ok { s with audio_chunks := s.audio_chunks ++
      [{ index := chunk_index
         audio_base64 := audio
         char_start := char_offset
         char_end := char_offset + text.length
         duration_ms := dur }] }

/-- The per-segment loop bodies of `_run_tts_queue`: process a list of
ready chunk texts in order, threading `chunk_index` and `char_offset`.
The fourth component carries the message of a raised exception. -/
def processChunksLoop (synth : Synth) :
    TTSQueueState → List String → Nat → Nat →
    TTSQueueState × Nat × Nat × Option String
  | s, [], idx, off => (s, idx, off, none)
  | s, text :: rest, idx, off =>
    match process_tts_chunk synth s text idx off with
    | Except.error e => (s, idx, off, some e)
    | Except.ok s2 =>
      processChunksLoop synth s2 rest (idx + 1) (off + text.length)

/-- The consume loop of `_run_tts_queue` over an explicit list of queue
items (`none` is the EOF sentinel): feed the chunker, synthesize every
ready segment, and set the terminal status exactly as the source does.
An exhausted item list leaves the worker suspended on the channel. -/
def run_tts_queue_items (synth : Synth) (fuel : Nat) :
    StreamingTextChunker → Nat → Nat → TTSQueueState →
    List (Option String) → TTSQueueState
  | _, _, _, s, [] => s
  | chunker, idx, off, s, none :: _ =>
    let r := chunker.flush fuel
    match processChunksLoop synth s r.1 idx off with
    | (s2, _, _, none) => { s2 with status := TTSStatus.complete }
    | (s2, _, _, some e) =>
      { s2 with status := TTSStatus.error, error_message := some e }
  | chunker, idx, off, s, some t :: rest =>
    let r := chunker.add_text t fuel
    match processChunksLoop synth s r.1 idx off with
    | (s2, idx2, off2, none) =>
      run_tts_queue_items synth fuel r.2 idx2 off2 s2 rest
    | (s2, _, _, some e) =>
      { s2 with status := TTSStatus.error, error_message := some e }

/-- Entry point of the generation worker `_run_tts_queue`: fresh chunker
with the source defaults `max_tokens = 50`, `min_tokens = 15`, counters
at zero, consuming the given channel items. -/
def run_tts_queue (synth : Synth) (tok : Tokenizer) (fuel : Nat)
    (s : TTSQueueState) (items : List (Option String)) : TTSQueueState :=
  run_tts_queue_items synth fuel
    { tokenizer := tok, max_tokens := 50, min_tokens := 15, buffer := "" }
    0 0 s items

/-- System state for interleaving traces on one queue: the queue record
together with the running counters of its generation worker. -/
structure SysState where
  q : TTSQueueState
  chunk_index : Nat
  char_offset : Nat

/-- One observable step on a single queue: a producer `push`, the worker
appending one synthesized chunk (`produce`, as in `_process_tts_chunk`),
or a consumer `poll`. -/
inductive TraceStep where
  | push (text : String)
  | produce (text audio : String) (dur : Nat)
  | poll

/-- Small-step semantics of `TraceStep`; a `poll` step also yields the
list of chunk indices it returns to the consumer. -/
def traceStep (s : SysState) : TraceStep → SysState × Option (List Nat)
  | TraceStep.push t =>
    if s.q.end_signaled then (s, none)
    else
      match s.q.text_queue.put_nowait (some t) with
      | none => (s, none)
      | some tq => ({ s with q := { s.q with text_queue := tq } }, none)
  | TraceStep.produce text audio dur =>
    let c : AudioChunkData :=
      { index := s.chunk_index
        audio_base64 := audio
        char_start := s.char_offset
        char_end := s.char_offset + text.length
        duration_ms := dur }
    ({ q := { s.q with audio_chunks := s.q.audio_chunks ++ [c] }
       chunk_index := s.chunk_index + 1
       char_offset := s.char_offset + text.length }, none)
  | TraceStep.poll =>
    let r := pollPure s.q
    ({ s with q := r.2.1 }, some (r.1.map AudioChunkData.index))

/-- Run a trace, collecting the index list of every poll result. -/
def runTrace : SysState → List TraceStep → SysState × List (List Nat)
  | s, [] => (s, [])
  | s, st :: rest =>
    let r := traceStep s st
    let r2 := runTrace r.1 rest
    match r.2 with
    | none => r2
    | some out => (r2.1, out :: r2.2)

/-- The initial system state of a freshly created queue. -/
def initSysState (queue_id voice : String) (sample_rate : Nat) : SysState :=
  { q := mkTTSQueueState queue_id voice sample_rate
    chunk_index := 0
    char_offset := 0 }

/-- Looking up a key just written by `regSet` yields the written value. -/
theorem regGet_regSet (reg : Registry) (k : String) (v : TTSQueueState) :
    regGet (regSet reg k v) k = some v := by
  induction reg with
  | nil => simp [regSet, regGet]
  | cons kv rest ih =>
    obtain ⟨k0, v0⟩ := kv
    by_cases h : k0 = k
    · simp [regSet, regGet, h]
    · simp [regSet, regGet, h, ih]

/-- Looking up a key just removed by `regRemove` yields nothing. -/
theorem regGet_regRemove (reg : Registry) (qid : String) :
    regGet (regRemove reg qid) qid = none := by
  induction reg with
  | nil => rfl
  | cons kv rest ih =>
    obtain ⟨k0, v0⟩ := kv
    by_cases h : k0 = qid
    · simp [regRemove, h, ih]
    · simp [regRemove, regGet, h, ih]

/-- Sample audio chunk used in concrete instantiations. -/
def sampleChunk : AudioChunkData :=
  { index := 0, audio_base64 := "QUJD", char_start := 0, char_end := 5,
    duration_ms := 100 }

/-- A queue that reached status Error with one produced, undelivered
chunk and no end-of-text signal: exactly the state the worker leaves
behind when the synthesis backend raises mid-stream. -/
def erroredQueueState : TTSQueueState :=
  { mkTTSQueueState "q1" "cosette" 24000 with
      status := TTSStatus.error
      error_message := some "backend raised"
      audio_chunks := [sampleChunk] }

/-- C1: the claim requires `done = true` once status is Complete or
Error and every chunk is delivered, but the source computes
`done = (status == "complete") and ...`, so a queue in status Error
never reports `done = true`: every successful poll of an errored queue
returns its pending chunks with status Error and `done = false`,
contradicting Scenario D. -/
theorem poll_error_status_never_done (reg : Registry) (qid : String)
    (s : TTSQueueState) (h1 : regGet reg qid = some s)
    (h2 : s.status = TTSStatus.error) :
    (poll_tts_audio reg qid).2 =
      PollResult.ok (s.audio_chunks.drop s.chunks_delivered) false
        TTSStatus.error := by
  simp [poll_tts_audio, h1, pollPure, h2]

/-- Concrete instantiation of `poll_error_status_never_done`: polling
the errored queue returns its chunk with status Error yet
`done = false`. -/
theorem poll_error_status_never_done_witness :
    regGet [("q1", erroredQueueState)] "q1" = some erroredQueueState ∧
    erroredQueueState.status = TTSStatus.error ∧
    (poll_tts_audio [("q1", erroredQueueState)] "q1").2 =
      PollResult.ok [sampleChunk] false TTSStatus.error := by
  refine ⟨by decide, by decide, ?_⟩
  have h := poll_error_status_never_done [("q1", erroredQueueState)] "q1"
    erroredQueueState (by decide) (by decide)
  simpa [erroredQueueState, mkTTSQueueState] using h

/-- C7: a successful `cancel_tts_queue` removes the record from the
registry, so the immediately following poll on the same queue id
returns NotFound, regardless of produced-but-undelivered chunks. -/
theorem cancel_then_poll_notFound (reg : Registry) (qid : String)
    (s : TTSQueueState) (h : regGet reg qid = some s) :
    (cancel_tts_queue reg qid).2 = CancelResult.cancelled ∧
    (poll_tts_audio (cancel_tts_queue reg qid).1 qid).2 =
      PollResult.notFound := by
  constructor
  · simp [cancel_tts_queue, h]
  · simp [cancel_tts_queue, h, poll_tts_audio, regGet_regRemove]

/-- Concrete instantiation of `cancel_then_poll_notFound` on a queue
holding an undelivered chunk. -/
theorem cancel_then_poll_notFound_witness :
    regGet [("q1", erroredQueueState)] "q1" = some erroredQueueState ∧
    (cancel_tts_queue [("q1", erroredQueueState)] "q1").2 =
      CancelResult.cancelled ∧
    (poll_tts_audio (cancel_tts_queue [("q1", erroredQueueState)] "q1").1
      "q1").2 = PollResult.notFound := by
  have h := cancel_then_poll_notFound [("q1", erroredQueueState)] "q1"
    erroredQueueState (by decide)
  exact ⟨by decide, h.1, h.2⟩

/-- C9: the incoming-text channel is the default `asyncio.Queue()`,
whose `maxsize` is 0, and `put_nowait` on a queue with `maxsize = 0`
always succeeds, so `add_tts_text` on a registered, not-yet-ended queue
always returns `queued` and appends the fragment; the Queue-full error
branch is unreachable. -/
theorem add_tts_text_never_queue_full (reg : Registry)
    (qid text id voice : String) (sr : Nat) (s : TTSQueueState)
    (h1 : regGet reg qid = some s) (h2 : s.end_signaled = false)
    (h3 : s.text_queue.maxsize = 0) :
    (mkTTSQueueState id voice sr).text_queue.maxsize = 0 ∧
    (add_tts_text reg qid text).2 = AddTextResult.queued ∧
    regGet (add_tts_text reg qid text).1 qid = some
      { s with text_queue :=
          { s.text_queue with items := s.text_queue.items ++ [some text] } } := by
  refine ⟨rfl, ?_, ?_⟩
  · simp [add_tts_text, h1, h2, AsyncQueue.put_nowait, AsyncQueue.full, h3]
  · simp [add_tts_text, h1, h2, AsyncQueue.put_nowait, AsyncQueue.full, h3,
      regGet_regSet]

/-- Concrete instantiation of `add_tts_text_never_queue_full` on a fresh
queue. -/
theorem add_tts_text_never_queue_full_witness :
    (mkTTSQueueState "q1" "cosette" 24000).text_queue.maxsize = 0 ∧
    (add_tts_text [("q1", mkTTSQueueState "q1" "cosette" 24000)] "q1"
      "Hello").2 = AddTextResult.queued := by
  have h := add_tts_text_never_queue_full
    [("q1", mkTTSQueueState "q1" "cosette" 24000)] "q1" "Hello" "q1"
    "cosette" 24000 (mkTTSQueueState "q1" "cosette" 24000)
    (by decide) (by decide) (by decide)
  exact ⟨h.1, h.2.1⟩

/-- C10: a successful poll only advances the delivery cursor to the
current chunk count; every other field of the queue state is unchanged.
Under the cursor invariant (cursor at most the chunk count, preserved by
the last conjunct), the cursor never decreases and never exceeds the
chunk count. -/
theorem poll_frame_effect (s : TTSQueueState)
    (h : s.chunks_delivered ≤ s.audio_chunks.length) :
    (pollPure s).2.1.chunks_delivered = s.audio_chunks.length ∧
    (pollPure s).2.1.status = s.status ∧
    (pollPure s).2.1.audio_chunks = s.audio_chunks ∧
    (pollPure s).2.1.voice = s.voice ∧
    (pollPure s).2.1.sample_rate = s.sample_rate ∧
    (pollPure s).2.1.end_signaled = s.end_signaled ∧
    (pollPure s).2.1.error_message = s.error_message ∧
    (pollPure s).2.1.text_queue = s.text_queue ∧
    (pollPure s).2.1.id = s.id ∧
    s.chunks_delivered ≤ (pollPure s).2.1.chunks_delivered ∧
    (pollPure s).2.1.chunks_delivered ≤
      (pollPure s).2.1.audio_chunks.length := by
  simp [pollPure]
  exact h

/-- Concrete instantiation of `poll_frame_effect`. -/
theorem poll_frame_effect_witness :
    erroredQueueState.chunks_delivered ≤
      erroredQueueState.audio_chunks.length ∧
    (pollPure erroredQueueState).2.1.chunks_delivered =
      erroredQueueState.audio_chunks.length ∧
    (pollPure erroredQueueState).2.1.status = erroredQueueState.status := by
  have h := poll_frame_effect erroredQueueState (by decide)
  exact ⟨by decide, h.1, h.2.1⟩

/-- A concrete tokenizer for instantiations: one token per character,
token id = code point, end-of-sentence ids for period, bang, question
mark. -/
def charTokenizer : Tokenizer :=
  { encode := fun s => s.data.map Char.toNat
    decode := fun l => String.mk (l.map Char.ofNat)
    eos_tokens := [46, 33, 63] }

/-- A synthesis backend that raises on every request. -/
def failSynth : Synth := fun _ => Except.error "boom"

/-- Sixty characters of text with no sentence boundary: enough tokens
(under `charTokenizer`) to cross the `max_tokens = 50` threshold and
force an emission from `add_text`. -/
def longText : String := String.mk (List.replicate 60 'a')

/-- C4 counterexample: the claim says every pushText on a queue with
terminal status fails, but `add_tts_text` guards only on
`end_signaled`. Running the worker with a raising synthesis backend
leaves a registered queue in status Error with `end_signaled = false`,
and pushText on it succeeds with `queued`. -/
theorem pushText_after_error_succeeds :
    (run_tts_queue failSynth charTokenizer 8
        (mkTTSQueueState "q1" "cosette" 24000) [some longText]).status =
      TTSStatus.error ∧
    (run_tts_queue failSynth charTokenizer 8
        (mkTTSQueueState "q1" "cosette" 24000) [some longText]).end_signaled =
      false ∧
    (add_tts_text
        [("q1", run_tts_queue failSynth charTokenizer 8
            (mkTTSQueueState "q1" "cosette" 24000) [some longText])]
        "q1" "more").2 = AddTextResult.queued := by
  refine ⟨by decide, by decide, by decide⟩

/-- The per-segment worker loop never changes the queue status. -/
theorem processChunksLoop_status (synth : Synth) :
    ∀ (texts : List String) (s : TTSQueueState) (idx off : Nat),
      (processChunksLoop synth s texts idx off).1.status = s.status := by
  intro texts
  induction texts with
  | nil => intro s idx off; rfl
  | cons text rest ih =>
    intro s idx off
    cases hsy : synth text with
    | error e => simp [processChunksLoop, process_tts_chunk, hsy]
    | ok p =>
      obtain ⟨audio, dur⟩ := p
      simp only [processChunksLoop, process_tts_chunk, hsy]
      rw [ih]

/-- Once the worker run over some items has left the Active status, it
has terminated: feeding any further items produces the identical final
state, so in particular no further chunk is ever appended. -/
theorem run_tts_queue_items_frozen (synth : Synth) (fuel : Nat) :
    ∀ (items : List (Option String)) (chunker : StreamingTextChunker)
      (idx off : Nat) (w : TTSQueueState)
      (more : List (Option String)),
      w.status = TTSStatus.active →
      (run_tts_queue_items synth fuel chunker idx off w items).status ≠
        TTSStatus.active →
      run_tts_queue_items synth fuel chunker idx off w (items ++ more) =
        run_tts_queue_items synth fuel chunker idx off w items := by
  intro items
  induction items with
  | nil =>
    intro chunker idx off w more hact hterm
    simp only [run_tts_queue_items] at hterm
    exact absurd hact hterm
  | cons item rest ih =>
    intro chunker idx off w more hact hterm
    cases item with
    | none => simp only [List.cons_append, run_tts_queue_items]
    | some t =>
      simp only [List.cons_append, run_tts_queue_items] at hterm ⊢
      rcases hP : processChunksLoop synth w (chunker.add_text t fuel).1
        idx off with ⟨s2, idx2, off2, err⟩
      rw [hP] at hterm
      cases err with
      | none =>
        have hs2 : s2.status = w.status := by
          have h := processChunksLoop_status synth
            (chunker.add_text t fuel).1 w idx off
          rw [hP] at h
          exact h
        exact ih (chunker.add_text t fuel).2 idx2 off2 s2 more
          (by rw [hs2]; exact hact) hterm
      | some e => rfl

/-- C4 as amended: pushText and endText are rejected exactly once
end-of-text has been signaled or the queue was removed from the
registry (the source guards on `end_signaled` and on registry
membership, not on the status), the rejected calls leave the registry
unchanged, and the chunk list never grows after a terminal status: no
registry operation ever changes a registered queue's chunk list, and
the worker — the sole appender — has terminated whenever the status
left Active, so feeding it further text changes nothing. A queue whose
status became Error without an end-of-text signal still accepts text,
as `pushText_after_error_succeeds` shows. -/
theorem end_signaled_rejects_push_and_end (reg : Registry)
    (qid text : String) (s : TTSQueueState)
    (h1 : regGet reg qid = some s) (h2 : s.end_signaled = true) :
    (add_tts_text reg qid text).2 = AddTextResult.alreadyEnded ∧
    (add_tts_text reg qid text).1 = reg ∧
    (end_tts_queue reg qid).2 = EndResult.already_ended ∧
    (end_tts_queue reg qid).1 = reg ∧
    (∀ (reg2 : Registry) (qid2 text2 : String),
      regGet reg2 qid2 = none →
      (add_tts_text reg2 qid2 text2).2 = AddTextResult.notFound ∧
      (end_tts_queue reg2 qid2).2 = EndResult.notFound) ∧
    (∀ (reg2 : Registry) (qid2 text2 : String) (s2 s3 : TTSQueueState),
      regGet reg2 qid2 = some s2 →
      regGet (add_tts_text reg2 qid2 text2).1 qid2 = some s3 →
      s3.audio_chunks = s2.audio_chunks) ∧
    (∀ (reg2 : Registry) (qid2 : String) (s2 s3 : TTSQueueState),
      regGet reg2 qid2 = some s2 →
      regGet (end_tts_queue reg2 qid2).1 qid2 = some s3 →
      s3.audio_chunks = s2.audio_chunks) ∧
    (∀ (reg2 : Registry) (qid2 : String) (s2 s3 : TTSQueueState),
      regGet reg2 qid2 = some s2 →
      regGet (poll_tts_audio reg2 qid2).1 qid2 = some s3 →
      s3.audio_chunks = s2.audio_chunks) ∧
    (∀ (synth : Synth) (fuel : Nat) (chunker : StreamingTextChunker)
        (idx off : Nat) (w : TTSQueueState)
        (items more : List (Option String)),
      w.status = TTSStatus.active →
      (run_tts_queue_items synth fuel chunker idx off w items).status ≠
        TTSStatus.active →
      run_tts_queue_items synth fuel chunker idx off w (items ++ more) =
        run_tts_queue_items synth fuel chunker idx off w items) := by
  refine ⟨by simp [add_tts_text, h1, h2], by simp [add_tts_text, h1, h2],
    by simp [end_tts_queue, h1, h2], by simp [end_tts_queue, h1, h2],
    ?_, ?_, ?_, ?_,
    fun synth fuel chunker idx off w items more hact hterm =>
      run_tts_queue_items_frozen synth fuel items chunker idx off w more
        hact hterm⟩
  · intro reg2 qid2 text2 hnone
    exact ⟨by simp [add_tts_text, hnone], by simp [end_tts_queue, hnone]⟩
  · intro reg2 qid2 text2 s2 s3 hg hg2
    simp only [add_tts_text, hg] at hg2
    by_cases hes : s2.end_signaled
    · rw [if_pos hes] at hg2
      rw [hg] at hg2
      injection hg2 with h
      rw [← h]
    · rw [if_neg hes] at hg2
      cases hq : s2.text_queue.put_nowait (some text2) with
      | none =>
        rw [hq] at hg2
        rw [hg] at hg2
        injection hg2 with h
        rw [← h]
      | some q =>
        rw [hq] at hg2
        rw [regGet_regSet] at hg2
        injection hg2 with h
        rw [← h]
  · intro reg2 qid2 s2 s3 hg hg2
    simp only [end_tts_queue, hg] at hg2
    by_cases hes : s2.end_signaled
    · rw [if_pos hes] at hg2
      rw [hg] at hg2
      injection hg2 with h
      rw [← h]
    · rw [if_neg hes] at hg2
      cases hq : ({ s2 with end_signaled := true } :
          TTSQueueState).text_queue.put_nowait none with
      | none =>
        rw [hq] at hg2
        rw [regGet_regSet] at hg2
        injection hg2 with h
        rw [← h]
      | some q =>
        rw [hq] at hg2
        rw [regGet_regSet] at hg2
        injection hg2 with h
        rw [← h]
  · intro reg2 qid2 s2 s3 hg hg2
    simp only [poll_tts_audio, hg] at hg2
    rw [regGet_regSet] at hg2
    injection hg2 with h
    rw [← h]
    simp [pollPure]

/-- Concrete instantiation of `end_signaled_rejects_push_and_end`. -/
theorem end_signaled_rejects_push_and_end_witness :
    regGet [("q1", { mkTTSQueueState "q1" "cosette" 24000 with
        end_signaled := true })] "q1" = some
      { mkTTSQueueState "q1" "cosette" 24000 with end_signaled := true } ∧
    (add_tts_text [("q1", { mkTTSQueueState "q1" "cosette" 24000 with
        end_signaled := true })] "q1" "x").2 = AddTextResult.alreadyEnded ∧
    (end_tts_queue [("q1", { mkTTSQueueState "q1" "cosette" 24000 with
        end_signaled := true })] "q1").2 = EndResult.already_ended := by
  have h := end_signaled_rejects_push_and_end
    [("q1", { mkTTSQueueState "q1" "cosette" 24000 with
        end_signaled := true })] "q1" "x"
    { mkTTSQueueState "q1" "cosette" 24000 with end_signaled := true }
    (by decide) (by decide)
  exact ⟨by decide, h.1, h.2.2.1⟩

/-- Dropping from a `range'` leaves a `range'`. -/
theorem drop_range' (n : Nat) :
    ∀ s m, (List.range' s n).drop m = List.range' (s + m) (n - m) := by
  induction n with
  | zero => intro s m; simp
  | succ k ih =>
    intro s m
    cases m with
    | zero => simp
    | succ m0 =>
      rw [List.range'_succ]
      simp only [List.drop_succ_cons]
      rw [ih (s + 1) m0]
      congr 1 <;> omega

/-- Invariant tying a queue to its worker counters: the chunk indices
are exactly `0, 1, ...` in order, the worker counter equals the chunk
count, and the delivery cursor is within bounds. -/
def SysInv (s : SysState) : Prop :=
  s.q.audio_chunks.map AudioChunkData.index =
    List.range s.q.audio_chunks.length ∧
  s.chunk_index = s.q.audio_chunks.length ∧
  s.q.chunks_delivered ≤ s.q.audio_chunks.length

/-- Single-step soundness: every trace step preserves `SysInv`, never
moves the delivery cursor backwards, and the indices a poll returns are
exactly the cursor range it advances over. -/
theorem traceStep_spec (s : SysState) (st : TraceStep) (h : SysInv s) :
    SysInv (traceStep s st).1 ∧
    s.q.chunks_delivered ≤ (traceStep s st).1.q.chunks_delivered ∧
    ((traceStep s st).2.getD []) =
      List.range' s.q.chunks_delivered
        ((traceStep s st).1.q.chunks_delivered - s.q.chunks_delivered) := by
  obtain ⟨h1, h2, h3⟩ := h
  cases st with
  | push t =>
    by_cases he : s.q.end_signaled
    · simp [traceStep, he, SysInv, h1, h2, h3]
    · cases hput : s.q.text_queue.put_nowait (some t) with
      | none => simp [traceStep, he, hput, SysInv, h1, h2, h3]
      | some tq => simp [traceStep, he, hput, SysInv, h1, h2, h3]
  | produce text audio dur =>
    refine ⟨⟨?_, ?_, ?_⟩, ?_, ?_⟩
    · simp [traceStep, h1, h2, List.range_succ]
    · simp [traceStep, h2]
    · simp [traceStep]
      omega
    · simp [traceStep]
    · simp [traceStep]
  | poll =>
    refine ⟨⟨?_, ?_, ?_⟩, ?_, ?_⟩
    · simpa [traceStep, pollPure] using h1
    · simpa [traceStep, pollPure] using h2
    · simp [traceStep, pollPure]
    · simpa [traceStep, pollPure] using h3
    · simp only [traceStep, pollPure, Option.getD_some]
      calc (s.q.audio_chunks.drop s.q.chunks_delivered).map
            AudioChunkData.index
          = (s.q.audio_chunks.map AudioChunkData.index).drop
              s.q.chunks_delivered := by
            simp [List.map_drop]
        _ = (List.range s.q.audio_chunks.length).drop
              s.q.chunks_delivered := by rw [h1]
        _ = List.range' s.q.chunks_delivered
              (s.q.audio_chunks.length - s.q.chunks_delivered) := by
            rw [List.range_eq_range']
            simpa using drop_range' s.q.audio_chunks.length 0
              s.q.chunks_delivered

/-- Trace soundness: over any trace the invariant is preserved, the
cursor is monotone, and the concatenated poll outputs are the cursor
range the trace advanced over. -/
theorem runTrace_spec (steps : List TraceStep) :
    ∀ s : SysState, SysInv s →
    SysInv (runTrace s steps).1 ∧
    s.q.chunks_delivered ≤ (runTrace s steps).1.q.chunks_delivered ∧
    (runTrace s steps).2.join =
      List.range' s.q.chunks_delivered
        ((runTrace s steps).1.q.chunks_delivered - s.q.chunks_delivered) := by
  induction steps with
  | nil => intro s h; exact ⟨h, le_refl _, by simp [runTrace]⟩
  | cons st rest ih =>
    intro s h
    obtain ⟨hInv, hle, hout⟩ := traceStep_spec s st h
    obtain ⟨hInv2, hle2, hjoin⟩ := ih (traceStep s st).1 hInv
    cases hO : (traceStep s st).2 with
    | none =>
      have hr : runTrace s (st :: rest) =
          runTrace (traceStep s st).1 rest := by
        simp [runTrace, hO]
      rw [hO] at hout
      simp only [Option.getD_none] at hout
      have hd : (traceStep s st).1.q.chunks_delivered =
          s.q.chunks_delivered := by
        have h0 := hout.symm
        rw [List.range'_eq_nil] at h0
        omega
      refine ⟨by rw [hr]; exact hInv2, ?_, ?_⟩
      · rw [hr]; omega
      · rw [hr, hjoin, hd]
    | some out =>
      have hr : runTrace s (st :: rest) =
          ((runTrace (traceStep s st).1 rest).1,
            out :: (runTrace (traceStep s st).1 rest).2) := by
        simp [runTrace, hO]
      rw [hO] at hout
      simp only [Option.getD_some] at hout
      have hfin1 : (runTrace s (st :: rest)).1 =
          (runTrace (traceStep s st).1 rest).1 := by rw [hr]
      have hfin2 : (runTrace s (st :: rest)).2 =
          out :: (runTrace (traceStep s st).1 rest).2 := by rw [hr]
      refine ⟨by rw [hfin1]; exact hInv2,
        by rw [hfin1]; exact le_trans hle hle2, ?_⟩
      rw [hfin2, hfin1]
      have hflat : (out :: (runTrace (traceStep s st).1 rest).2).join =
          out ++ (runTrace (traceStep s st).1 rest).2.join := by simp
      rw [hflat, hout, hjoin]
      have happ := List.range'_append s.q.chunks_delivered
        ((traceStep s st).1.q.chunks_delivered - s.q.chunks_delivered)
        ((runTrace (traceStep s st).1 rest).1.q.chunks_delivered -
          (traceStep s st).1.q.chunks_delivered) 1
      simp only [one_mul] at happ
      have he1 : s.q.chunks_delivered +
          ((traceStep s st).1.q.chunks_delivered - s.q.chunks_delivered) =
          (traceStep s st).1.q.chunks_delivered := by omega
      rw [he1] at happ
      rw [happ]
      congr 1
      omega

/-- C2: over every interleaving of producer pushes, worker chunk
appends and consumer polls on a freshly created queue, the
concatenation of the chunk-index lists returned by successive polls is
exactly `[0, 1, ..., d-1]` where `d` is the final delivery cursor:
indices are strictly increasing with no gaps and no duplicates, and
each produced chunk is returned by at most one poll (exactly one once
delivered). -/
theorem poll_indices_consecutive (queue_id voice : String)
    (sample_rate : Nat) (steps : List TraceStep) :
    (runTrace (initSysState queue_id voice sample_rate) steps).2.join =
      List.range
        (runTrace (initSysState queue_id voice sample_rate)
          steps).1.q.chunks_delivered := by
  have h0 : SysInv (initSysState queue_id voice sample_rate) := by
    refine ⟨by simp [initSysState, mkTTSQueueState],
      by simp [initSysState, mkTTSQueueState],
      by simp [initSysState, mkTTSQueueState]⟩
  obtain ⟨_, _, hjoin⟩ := runTrace_spec steps _ h0
  rw [hjoin]
  rw [List.range_eq_range']
  simp [initSysState, mkTTSQueueState]

/-- The exclusive end of the last chunk range, starting from `o` for an
empty list. -/
def chunksEnd : Nat → List AudioChunkData → Nat
  | o, [] => o
  | _, c :: rest => chunksEnd c.char_end rest

/-- Contiguity of the half-open chunk ranges starting at `o`: the first
chunk starts at `o` and every later chunk starts where its predecessor
ends, so the ranges partition `[o, chunksEnd o l)` with no overlap. -/
def contigFrom : Nat → List AudioChunkData → Bool
  | _, [] => true
  | o, c :: rest => decide (c.char_start = o) && contigFrom c.char_end rest

/-- Appending a chunk moves the range end to its `char_end`. -/
theorem chunksEnd_append (l : List AudioChunkData) :
    ∀ o c, chunksEnd o (l ++ [c]) = c.char_end := by
  induction l with
  | nil => intro o c; simp [chunksEnd]
  | cons c0 rest ih => intro o c; simp [chunksEnd, ih]

/-- Appending a chunk preserves contiguity exactly when it starts where
the previous ranges end. -/
theorem contigFrom_append (l : List AudioChunkData) :
    ∀ o c, contigFrom o (l ++ [c]) =
      (contigFrom o l && decide (c.char_start = chunksEnd o l)) := by
  induction l with
  | nil => intro o c; simp [contigFrom, chunksEnd]
  | cons c0 rest ih =>
    intro o c
    simp [contigFrom, chunksEnd, ih, Bool.and_assoc]

/-- Generation-worker invariant: chunk indices are `0, 1, ...` in
order, the running chunk index equals the chunk count, the character
ranges are contiguous from 0, and the running character offset is the
end of the last range. -/
def WorkerInv (s : TTSQueueState) (idx off : Nat) : Prop :=
  s.audio_chunks.map AudioChunkData.index =
    List.range s.audio_chunks.length ∧
  idx = s.audio_chunks.length ∧
  contigFrom 0 s.audio_chunks = true ∧
  chunksEnd 0 s.audio_chunks = off

/-- The per-segment loop of the worker preserves the worker invariant,
whether or not the synthesis backend raises along the way. -/
theorem processChunksLoop_inv (synth : Synth) (texts : List String) :
    ∀ s idx off, WorkerInv s idx off →
    WorkerInv (processChunksLoop synth s texts idx off).1
      (processChunksLoop synth s texts idx off).2.1
      (processChunksLoop synth s texts idx off).2.2.1 := by
  induction texts with
  | nil => intro s idx off h; simpa [processChunksLoop] using h
  | cons text rest ih =>
    intro s idx off h
    obtain ⟨h1, h2, h3, h4⟩ := h
    cases hsy : synth text with
    | error e =>
      simp only [processChunksLoop, process_tts_chunk, hsy]
      exact ⟨h1, h2, h3, h4⟩
    | ok p =>
      obtain ⟨audio, dur⟩ := p
      have hstep : WorkerInv
          { s with audio_chunks := s.audio_chunks ++
            [{ index := idx
               audio_base64 := audio
               char_start := off
               char_end := off + text.length
               duration_ms := dur }] } (idx + 1) (off + text.length) := by
        refine ⟨?_, ?_, ?_, ?_⟩
        · simp [h1, h2, List.range_succ]
        · simp [h2]
        · simp [contigFrom_append, h3, h4]
        · simp [chunksEnd_append]
      simpa [processChunksLoop, process_tts_chunk, hsy]
        using ih _ _ _ hstep

/-- The worker consume loop leaves the chunk list indexed `0, 1, ...`
and contiguous from character 0. -/
theorem run_tts_queue_items_chunks (synth : Synth) (fuel : Nat)
    (items : List (Option String)) :
    ∀ chunker idx off s, WorkerInv s idx off →
    (run_tts_queue_items synth fuel chunker idx off s items).audio_chunks.map
        AudioChunkData.index =
      List.range (run_tts_queue_items synth fuel chunker idx off
        s items).audio_chunks.length ∧
    contigFrom 0 (run_tts_queue_items synth fuel chunker idx off
      s items).audio_chunks = true := by
  induction items with
  | nil => intro chunker idx off s h; exact ⟨h.1, h.2.2.1⟩
  | cons item rest ih =>
    intro chunker idx off s h
    cases item with
    | none =>
      have hl := processChunksLoop_inv synth (chunker.flush fuel).1
        s idx off h
      rcases hP : processChunksLoop synth s (chunker.flush fuel).1 idx off
        with ⟨s2, idx2, off2, err⟩
      rw [hP] at hl
      cases err with
      | none =>
        simp only [run_tts_queue_items, hP]
        exact ⟨hl.1, hl.2.2.1⟩
      | some e =>
        simp only [run_tts_queue_items, hP]
        exact ⟨hl.1, hl.2.2.1⟩
    | some t =>
      have hl := processChunksLoop_inv synth (chunker.add_text t fuel).1
        s idx off h
      rcases hP : processChunksLoop synth s (chunker.add_text t fuel).1
        idx off with ⟨s2, idx2, off2, err⟩
      rw [hP] at hl
      cases err with
      | none =>
        simp only [run_tts_queue_items, hP]
        exact ih _ _ _ _ hl
      | some e =>
        simp only [run_tts_queue_items, hP]
        exact ⟨hl.1, hl.2.2.1⟩

/-- C8: for every synthesis backend, tokenizer and item stream, the
chunks the generation worker appends to a freshly created queue carry
consecutive 0-based indices (the chunk in position `i` has index `i`)
and contiguous half-open character ranges starting at 0, so the ranges
partition the covered text with no overlap. -/
theorem worker_chunks_indexed_and_contiguous (synth : Synth)
    (tok : Tokenizer) (fuel : Nat) (queue_id voice : String)
    (sample_rate : Nat) (items : List (Option String)) :
    (run_tts_queue synth tok fuel
        (mkTTSQueueState queue_id voice sample_rate) items).audio_chunks.map
        AudioChunkData.index =
      List.range (run_tts_queue synth tok fuel
        (mkTTSQueueState queue_id voice sample_rate)
        items).audio_chunks.length ∧
    contigFrom 0 (run_tts_queue synth tok fuel
      (mkTTSQueueState queue_id voice sample_rate) items).audio_chunks =
      true := by
  exact run_tts_queue_items_chunks synth fuel items _ 0 0 _
    ⟨by simp [mkTTSQueueState], by simp [mkTTSQueueState],
     by simp [mkTTSQueueState, contigFrom],
     by simp [mkTTSQueueState, chunksEnd]⟩

/-- Position bounds for the boundary-collecting loop: every collected
boundary lies in `[i, i + l.length)`, and strictly after `i` when the
previous token was not sentence punctuation. -/
theorem boundariesGo_mem_bounds (eos : List Nat) :
    ∀ (l : List Nat) (i : Nat) (prev : Bool) (b : Nat),
      b ∈ boundariesGo eos i prev l →
      i ≤ b ∧ (prev = false → i < b) ∧ b < i + l.length := by
  intro l
  induction l with
  | nil => intro i prev b hb; simp [boundariesGo] at hb
  | cons t rest ih =>
    intro i prev b hb
    by_cases he : eos.contains t = true
    · simp only [boundariesGo, if_pos he] at hb
      obtain ⟨h1, h2, h3⟩ := ih (i + 1) true b hb
      refine ⟨by omega, fun _ => by omega, ?_⟩
      simp only [List.length_cons]
      omega
    · cases prev with
      | true =>
        simp only [boundariesGo, if_neg he, if_true] at hb
        rcases List.mem_cons.mp hb with hbi | hb2
        · subst hbi
          refine ⟨le_refl _, ?_, ?_⟩
          · intro hc
            exact absurd hc (by simp)
          · simp only [List.length_cons]
            omega
        · obtain ⟨h1, h2, h3⟩ := ih (i + 1) false b hb2
          refine ⟨by omega, fun _ => by omega, ?_⟩
          simp only [List.length_cons]
          omega
      | false =>
        simp only [boundariesGo, if_neg he, if_false] at hb
        obtain ⟨h1, h2, h3⟩ := ih (i + 1) false b hb
        have h4 := h2 rfl
        refine ⟨by omega, fun _ => by omega, ?_⟩
        simp only [List.length_cons]
        omega

/-- The collected boundaries are strictly increasing. -/
theorem boundariesGo_pairwise (eos : List Nat) :
    ∀ (l : List Nat) (i : Nat) (prev : Bool),
      List.Pairwise (· < ·) (boundariesGo eos i prev l) := by
  intro l
  induction l with
  | nil => intro i prev; simp [boundariesGo]
  | cons t rest ih =>
    intro i prev
    by_cases he : eos.contains t = true
    · simp only [boundariesGo, if_pos he]
      exact ih (i + 1) true
    · cases prev with
      | true =>
        simp only [boundariesGo, if_neg he, if_true]
        refine List.pairwise_cons.mpr ⟨?_, ih (i + 1) false⟩
        intro b hb
        have h := (boundariesGo_mem_bounds eos rest (i + 1) false b hb).2.1 rfl
        omega
      | false =>
        simp only [boundariesGo, if_neg he, if_false]
        exact ih (i + 1) false

/-- All sentence boundaries are strictly increasing. -/
theorem sentenceBoundaries_pairwise (eos tokens : List Nat) :
    List.Pairwise (· < ·) (sentenceBoundaries eos tokens) := by
  unfold sentenceBoundaries
  cases hgl : tokens.getLast? with
  | none => exact boundariesGo_pairwise eos tokens 0 false
  | some t =>
    by_cases he : eos.contains t = true
    · simp only [if_pos he]
      rw [List.pairwise_append]
      refine ⟨boundariesGo_pairwise eos tokens 0 false, by simp, ?_⟩
      intro a ha b hb
      rw [List.mem_singleton] at hb
      subst hb
      have h := (boundariesGo_mem_bounds eos tokens 0 false a ha).2.2
      omega
    · simp only [if_neg he]
      exact boundariesGo_pairwise eos tokens 0 false

/-- Every sentence boundary is positive and at most the token count. -/
theorem sentenceBoundaries_mem_bounds (eos tokens : List Nat) (b : Nat)
    (hb : b ∈ sentenceBoundaries eos tokens) :
    0 < b ∧ b ≤ tokens.length := by
  have hgo : b ∈ boundariesGo eos 0 false tokens →
      0 < b ∧ b ≤ tokens.length := by
    intro h
    obtain ⟨h1, h2, h3⟩ := boundariesGo_mem_bounds eos tokens 0 false b h
    exact ⟨h2 rfl, by omega⟩
  cases hgl : tokens.getLast? with
  | none =>
    simp only [sentenceBoundaries, hgl] at hb
    exact hgo hb
  | some t =>
    simp only [sentenceBoundaries, hgl] at hb
    by_cases he : eos.contains t = true
    · rw [if_pos he, List.mem_append] at hb
      rcases hb with hb | hb
      · exact hgo hb
      · rw [List.mem_singleton] at hb
        subst hb
        have hne : tokens ≠ [] := by
          intro hc
          rw [hc] at hgl
          cases hgl
        have hpos : 0 < tokens.length := List.length_pos.mpr hne
        omega
    · rw [if_neg he] at hb
      exact hgo hb

/-- Accumulator spec of the boundary-selection loop: starting from an
already-taken boundary within `maxT`, the result stays within `maxT`
and is the accumulator or a list element. -/
theorem bestBoundaryGo_acc (maxT : Nat) :
    ∀ (bs : List Nat) (best : Nat), 0 < best → best ≤ maxT →
      (∀ x ∈ bs, 0 < x) →
      bestBoundaryGo maxT bs best ≤ maxT ∧
      (bestBoundaryGo maxT bs best = best ∨
        bestBoundaryGo maxT bs best ∈ bs) := by
  intro bs
  induction bs with
  | nil => intro best h1 h2 _; exact ⟨h2, Or.inl rfl⟩
  | cons b rest ih =>
    intro best h1 h2 hpos
    by_cases hb : b ≤ maxT
    · simp only [bestBoundaryGo, if_pos hb]
      obtain ⟨hle, hm⟩ := ih b (hpos b (by simp)) hb
        (fun x hx => hpos x (by simp [hx]))
      refine ⟨hle, Or.inr ?_⟩
      rcases hm with h | h
      · simp [h]
      · simp [h]
    · have hb0 : best ≠ 0 := by omega
      simp only [bestBoundaryGo, if_neg hb, if_neg hb0]
      refine ⟨h2, ?_⟩
      simp

/-- Selection spec of `_find_best_split` over a sorted positive
boundary list: the chosen boundary is within `maxT`, or it is the
first boundary and every boundary exceeds `maxT`. -/
theorem bestBoundaryGo_spec (maxT : Nat) (bs : List Nat)
    (hsort : List.Pairwise (· < ·) bs) (hpos : ∀ x ∈ bs, 0 < x)
    (hne : bs ≠ []) :
    (bestBoundaryGo maxT bs 0 ≤ maxT ∧ bestBoundaryGo maxT bs 0 ∈ bs) ∨
    (bs.head? = some (bestBoundaryGo maxT bs 0) ∧
      ∀ x ∈ bs, maxT < x) := by
  cases bs with
  | nil => exact absurd rfl hne
  | cons b rest =>
    by_cases hb : b ≤ maxT
    · left
      simp only [bestBoundaryGo, if_pos hb]
      obtain ⟨hle, hm⟩ := bestBoundaryGo_acc maxT rest b (hpos b (by simp))
        hb (fun x hx => hpos x (by simp [hx]))
      refine ⟨hle, ?_⟩
      rcases hm with h | h
      · simp [h]
      · simp [h]
    · right
      simp only [bestBoundaryGo, if_neg hb, if_pos rfl]
      refine ⟨rfl, ?_⟩
      intro x hx
      rcases List.mem_cons.mp hx with h | h
      · subst h; omega
      · have := (List.pairwise_cons.mp hsort).1 x h
        omega

/-- When every earlier boundary and the final boundary `n` are within
`maxT`, the selection loop returns `n`, the last boundary. -/
theorem bestBoundaryGo_last (maxT : Nat) :
    ∀ (bs : List Nat) (n : Nat), (∀ x ∈ bs, x ≤ maxT) → n ≤ maxT →
      ∀ best, bestBoundaryGo maxT (bs ++ [n]) best = n := by
  intro bs
  induction bs with
  | nil =>
    intro n h hn best
    simp [bestBoundaryGo, if_pos hn]
  | cons b rest ih =>
    intro n h hn best
    have hb : b ≤ maxT := h b (by simp)
    simp only [List.cons_append, bestBoundaryGo, if_pos hb]
    exact ih n (fun x hx => h x (by simp [hx])) hn b

/-- C6: when the stripped buffer tokenizes to a count within
`[min_tokens, max_tokens]` and ends exactly at a sentence-ending token,
`_try_extract_chunk` emits the whole buffer as one segment ending at
that boundary and leaves the buffer empty. The decode hypotheses state
that the external tokenizer round-trips the stripped buffer and decodes
the empty slice to the empty string. -/
theorem sentence_fast_path (c : StreamingTextChunker)
    (h0 : pyStrip c.buffer ≠ "")
    (h1 : c.min_tokens ≤ (c.tokenizer.encode (pyStrip c.buffer)).length)
    (h2 : (c.tokenizer.encode (pyStrip c.buffer)).length ≤ c.max_tokens)
    (h3 : c.ends_with_sentence_boundary
      (c.tokenizer.encode (pyStrip c.buffer)) = true)
    (h4 : pyStrip (c.tokenizer.decode
      (c.tokenizer.encode (pyStrip c.buffer))) = pyStrip c.buffer)
    (h5 : c.tokenizer.decode [] = "") :
    c.try_extract_chunk false =
      some (pyStrip c.buffer, { c with buffer := "" }) := by
  obtain ⟨t, hgl, hct⟩ : ∃ t,
      (c.tokenizer.encode (pyStrip c.buffer)).getLast? = some t ∧
      c.tokenizer.eos_tokens.contains t = true := by
    unfold StreamingTextChunker.ends_with_sentence_boundary at h3
    cases hgl : (c.tokenizer.encode (pyStrip c.buffer)).getLast? with
    | none => rw [hgl] at h3; cases h3
    | some t => rw [hgl] at h3; exact ⟨t, rfl, h3⟩
  have hne : c.tokenizer.encode (pyStrip c.buffer) ≠ [] := by
    intro hc
    rw [hc] at hgl
    cases hgl
  have hn0 : 0 < (c.tokenizer.encode (pyStrip c.buffer)).length :=
    List.length_pos.mpr hne
  have hmem : t ∈ c.tokenizer.eos_tokens := by simpa using hct
  by_cases hlt : (c.tokenizer.encode (pyStrip c.buffer)).length <
      c.max_tokens
  · simp [StreamingTextChunker.try_extract_chunk, h0,
      Nat.not_lt.mpr h1, hlt, h1, h3, hmem]
  · have hbs : sentenceBoundaries c.tokenizer.eos_tokens
        (c.tokenizer.encode (pyStrip c.buffer)) =
        boundariesGo c.tokenizer.eos_tokens 0 false
          (c.tokenizer.encode (pyStrip c.buffer)) ++
          [(c.tokenizer.encode (pyStrip c.buffer)).length] := by
      simp [sentenceBoundaries, hgl, hct, hmem]
    have hsplit : c.find_best_split
        (c.tokenizer.encode (pyStrip c.buffer)) false =
        (c.tokenizer.encode (pyStrip c.buffer)).length := by
      simp only [StreamingTextChunker.find_best_split, hbs]
      rw [if_neg (by simp)]
      exact bestBoundaryGo_last c.max_tokens _ _
        (fun x hx => by
          have := (boundariesGo_mem_bounds c.tokenizer.eos_tokens
            (c.tokenizer.encode (pyStrip c.buffer)) 0 false x hx).2.2
          omega)
        h2 0
    simp [StreamingTextChunker.try_extract_chunk, h0,
      Nat.not_lt.mpr h1, hlt, hsplit, Nat.pos_iff_ne_zero.mp hn0,
      List.take_length, List.drop_length, h5, h4]

/-- Chunker holding a short complete sentence for instantiation. -/
def c6chunker : StreamingTextChunker :=
  { tokenizer := charTokenizer, max_tokens := 5, min_tokens := 2,
    buffer := "Hi y." }

/-- Concrete instantiation of `sentence_fast_path`: a five-token buffer
ending in a period with bounds `[2, 5]` is emitted whole. -/
theorem sentence_fast_path_witness :
    c6chunker.try_extract_chunk false =
      some (pyStrip c6chunker.buffer, { c6chunker with buffer := "" }) :=
  sentence_fast_path c6chunker (by decide) (by decide) (by decide)
    (by decide) (by decide) (by decide)

/-- Split-point bound of `_find_best_split`: a nonzero split index is
within the token count, and is either within `max_tokens` or the first
sentence boundary when every boundary exceeds `max_tokens`. -/
theorem find_best_split_bound (c : StreamingTextChunker)
    (tokens : List Nat) (force : Bool)
    (hk : c.find_best_split tokens force ≠ 0) :
    c.find_best_split tokens force ≤ tokens.length ∧
    (c.find_best_split tokens force ≤ c.max_tokens ∨
      ((sentenceBoundaries c.tokenizer.eos_tokens tokens).head? =
          some (c.find_best_split tokens force) ∧
        ∀ b ∈ sentenceBoundaries c.tokenizer.eos_tokens tokens,
          c.max_tokens < b)) := by
  by_cases hbe : (sentenceBoundaries c.tokenizer.eos_tokens
      tokens).isEmpty = true
  · simp only [StreamingTextChunker.find_best_split, hbe, if_true] at hk ⊢
    by_cases hml : c.max_tokens ≤ tokens.length
    · simp only [if_pos hml] at hk ⊢
      exact ⟨hml, Or.inl (le_refl _)⟩
    · simp only [if_neg hml] at hk ⊢
      cases force with
      | true =>
        simp only [if_true] at hk ⊢
        exact ⟨le_refl _, Or.inl (by omega)⟩
      | false => simp at hk
  · have hne : sentenceBoundaries c.tokenizer.eos_tokens tokens ≠ [] := by
      intro hc
      rw [hc] at hbe
      exact hbe rfl
    have hspec := bestBoundaryGo_spec c.max_tokens
      (sentenceBoundaries c.tokenizer.eos_tokens tokens)
      (sentenceBoundaries_pairwise c.tokenizer.eos_tokens tokens)
      (fun x hx =>
        (sentenceBoundaries_mem_bounds c.tokenizer.eos_tokens tokens
          x hx).1)
      hne
    simp only [StreamingTextChunker.find_best_split, hbe, if_false] at hk ⊢
    rcases hspec with ⟨hle, hmem⟩ | ⟨hhead, hall⟩
    · exact ⟨(sentenceBoundaries_mem_bounds c.tokenizer.eos_tokens tokens
        _ hmem).2, Or.inl hle⟩
    · have hmem : bestBoundaryGo c.max_tokens
          (sentenceBoundaries c.tokenizer.eos_tokens tokens) 0 ∈
          sentenceBoundaries c.tokenizer.eos_tokens tokens := by
        cases hbs : sentenceBoundaries c.tokenizer.eos_tokens tokens with
        | nil => exact absurd hbs hne
        | cons x rest =>
          rw [hbs] at hhead
          simp only [List.head?_cons, Option.some.injEq] at hhead
          rw [← hhead]
          simp
      exact ⟨(sentenceBoundaries_mem_bounds c.tokenizer.eos_tokens tokens
        _ hmem).2, Or.inr ⟨hhead, hall⟩⟩

/-- C5: every segment `_try_extract_chunk` emits corresponds to a
prefix of `k` buffered tokens with `k` within the token count, and
either `k ≤ max_tokens`, or no sentence boundary lies at or below
`max_tokens` and `k` is the first boundary above it, or the emission is
the forced whole-buffer remainder of a flush. -/
theorem segment_token_bound (c : StreamingTextChunker) (force : Bool)
    (seg : String) (c2 : StreamingTextChunker)
    (h : c.try_extract_chunk force = some (seg, c2)) :
    ∃ k, k ≤ (c.tokenizer.encode (pyStrip c.buffer)).length ∧
      (seg = pyStrip (c.tokenizer.decode
          ((c.tokenizer.encode (pyStrip c.buffer)).take k)) ∨
        (k = (c.tokenizer.encode (pyStrip c.buffer)).length ∧
          seg = pyStrip c.buffer)) ∧
      (k ≤ c.max_tokens ∨
        ((sentenceBoundaries c.tokenizer.eos_tokens
            (c.tokenizer.encode (pyStrip c.buffer))).head? = some k ∧
          ∀ b ∈ sentenceBoundaries c.tokenizer.eos_tokens
            (c.tokenizer.encode (pyStrip c.buffer)), c.max_tokens < b) ∨
        (force = true ∧
          k = (c.tokenizer.encode (pyStrip c.buffer)).length)) := by
  by_cases h0 : pyStrip c.buffer = ""
  · simp [StreamingTextChunker.try_extract_chunk, h0] at h
  by_cases hmin : (c.tokenizer.encode (pyStrip c.buffer)).length <
      c.min_tokens ∧ force = false
  · simp [StreamingTextChunker.try_extract_chunk, h0, hmin] at h
  by_cases hmax : (c.tokenizer.encode (pyStrip c.buffer)).length <
      c.max_tokens ∧ force = false
  · by_cases hfast : c.min_tokens ≤
        (c.tokenizer.encode (pyStrip c.buffer)).length ∧
        c.ends_with_sentence_boundary
          (c.tokenizer.encode (pyStrip c.buffer)) = true
    · have hseg : seg = pyStrip c.buffer := by
        simp [StreamingTextChunker.try_extract_chunk, h0, hmin, hmax,
          hfast] at h
        exact h.1.symm
      exact ⟨(c.tokenizer.encode (pyStrip c.buffer)).length, le_refl _,
        Or.inr ⟨rfl, hseg⟩, Or.inl (le_of_lt hmax.1)⟩
    · simp [StreamingTextChunker.try_extract_chunk, h0, hmin, hmax,
        hfast] at h
  · by_cases hk0 : c.find_best_split
        (c.tokenizer.encode (pyStrip c.buffer)) force = 0
    · by_cases hf : force = true
      · rw [hf] at hk0
        have hseg : seg = pyStrip c.buffer := by
          simp [StreamingTextChunker.try_extract_chunk, h0, hf, hk0] at h
          exact h.1.symm
        exact ⟨(c.tokenizer.encode (pyStrip c.buffer)).length, le_refl _,
          Or.inr ⟨rfl, hseg⟩, Or.inr (Or.inr ⟨hf, rfl⟩)⟩
      · have hforce : force = false := by
          revert hf
          cases force <;> simp
        have hm1 : ¬ (c.tokenizer.encode (pyStrip c.buffer)).length <
            c.min_tokens := fun hc => hmin ⟨hc, hforce⟩
        have hm2 : ¬ (c.tokenizer.encode (pyStrip c.buffer)).length <
            c.max_tokens := fun hc => hmax ⟨hc, hforce⟩
        rw [hforce] at hk0
        simp [StreamingTextChunker.try_extract_chunk, h0, hforce, hm1,
          hm2, hk0] at h
    · have hseg : seg = pyStrip (c.tokenizer.decode
          ((c.tokenizer.encode (pyStrip c.buffer)).take
            (c.find_best_split
              (c.tokenizer.encode (pyStrip c.buffer)) force))) := by
        simp [StreamingTextChunker.try_extract_chunk, h0, hmin, hmax,
          hk0] at h
        exact h.1.symm
      obtain ⟨hb1, hb2⟩ := find_best_split_bound c
        (c.tokenizer.encode (pyStrip c.buffer)) force hk0
      refine ⟨c.find_best_split (c.tokenizer.encode (pyStrip c.buffer))
        force, hb1, Or.inl hseg, ?_⟩
      rcases hb2 with hb | hb
      · exact Or.inl hb
      · exact Or.inr (Or.inl hb)

/-- Chunker with eight buffered tokens and no sentence boundary, for
instantiation of the split bound. -/
def c5chunker : StreamingTextChunker :=
  { tokenizer := charTokenizer, max_tokens := 5, min_tokens := 2,
    buffer := "abcdefgh" }

/-- Concrete instantiation of `segment_token_bound`: the eight-token
boundary-free buffer is split into a five-token segment. -/
theorem segment_token_bound_witness :
    ∃ k, k ≤ (c5chunker.tokenizer.encode (pyStrip c5chunker.buffer)).length ∧
      (("abcde" : String) = pyStrip (c5chunker.tokenizer.decode
          ((c5chunker.tokenizer.encode (pyStrip c5chunker.buffer)).take k)) ∨
        (k = (c5chunker.tokenizer.encode (pyStrip c5chunker.buffer)).length ∧
          ("abcde" : String) = pyStrip c5chunker.buffer)) ∧
      (k ≤ c5chunker.max_tokens ∨
        ((sentenceBoundaries c5chunker.tokenizer.eos_tokens
            (c5chunker.tokenizer.encode (pyStrip c5chunker.buffer))).head? =
              some k ∧
          ∀ b ∈ sentenceBoundaries c5chunker.tokenizer.eos_tokens
            (c5chunker.tokenizer.encode (pyStrip c5chunker.buffer)),
            c5chunker.max_tokens < b) ∨
        (false = true ∧
          k = (c5chunker.tokenizer.encode
            (pyStrip c5chunker.buffer)).length)) :=
  segment_token_bound c5chunker false "abcde"
    { tokenizer := charTokenizer, max_tokens := 5, min_tokens := 2,
      buffer := "fgh" }
    (by rfl)

/-- The non-whitespace characters of a string, in order. Equality of
these sequences is the formal reading of text equality modulo the
whitespace trimming the chunker performs at emission boundaries. -/
def nonWS (s : String) : List Char :=
  s.data.filter (fun ch => !ch.isWhitespace)

/-- The non-whitespace characters of a list of strings, concatenated in
order. -/
def nonWSL (l : List String) : List Char := (l.map nonWS).join

/-- Drive the chunker over a full session: one `add_text` per input
fragment, then the single final `flush`, collecting every emitted
segment in order. -/
def chunkerRun (fuel : Nat) :
    StreamingTextChunker → List String →
    List String × StreamingTextChunker
  | c, [] => c.flush fuel
  | c, t :: rest =>
    let r := c.add_text t fuel
    let r2 := chunkerRun fuel r.2 rest
    (r.1 ++ r2.1, r2.2)

/-- Interface assumption on the external tokenizer: decoding the two
halves of a token split loses or invents no non-whitespace character
relative to decoding the whole (SentencePiece decoding differs across a
split only in whitespace marker handling). -/
def DecodeSplitOK (t : Tokenizer) : Prop :=
  ∀ (toks : List Nat) (k : Nat),
    nonWS (t.decode (toks.take k)) ++ nonWS (t.decode (toks.drop k)) =
      nonWS (t.decode toks)

/-- Interface assumption on the external tokenizer: an encode-decode
round trip preserves the non-whitespace characters. -/
def EncodeDecodeOK (t : Tokenizer) : Prop :=
  ∀ s : String, nonWS (t.decode (t.encode s)) = nonWS s

/-- Dropping leading whitespace does not change the non-whitespace
characters. -/
theorem filter_not_ws_dropWhile (l : List Char) :
    (l.dropWhile Char.isWhitespace).filter (fun ch => !ch.isWhitespace) =
      l.filter (fun ch => !ch.isWhitespace) := by
  induction l with
  | nil => rfl
  | cons ch rest ih =>
    by_cases hw : ch.isWhitespace = true
    · simp [List.dropWhile, List.filter, hw, ih]
    · simp [List.dropWhile, List.filter, hw]

/-- Stripping preserves the non-whitespace characters. -/
theorem nonWS_pyStrip (s : String) : nonWS (pyStrip s) = nonWS s := by
  show (((s.data.dropWhile Char.isWhitespace).reverse.dropWhile
      Char.isWhitespace).reverse).filter (fun ch => !ch.isWhitespace) =
    s.data.filter (fun ch => !ch.isWhitespace)
  rw [List.filter_reverse, filter_not_ws_dropWhile, List.filter_reverse,
    List.reverse_reverse, filter_not_ws_dropWhile]

/-- String concatenation concatenates the non-whitespace characters. -/
theorem nonWS_append (a b : String) :
    nonWS (a ++ b) = nonWS a ++ nonWS b := by
  unfold nonWS
  rw [String.data_append, List.filter_append]

/-- A string that strips to empty is whitespace-only. -/
theorem nonWS_of_pyStrip_empty (s : String) (h : pyStrip s = "") :
    nonWS s = [] := by
  have h2 : nonWS (pyStrip s) = nonWS s := nonWS_pyStrip s
  rw [h] at h2
  rw [← h2]
  rfl

/-- One chunk extraction preserves the non-whitespace characters: the
emitted segment plus the new buffer carry exactly the characters of the
old buffer. The tokenizer handle is unchanged. -/
theorem try_extract_chunk_nonWS (c : StreamingTextChunker) (force : Bool)
    (seg : String) (c2 : StreamingTextChunker)
    (hs : DecodeSplitOK c.tokenizer) (he : EncodeDecodeOK c.tokenizer)
    (h : c.try_extract_chunk force = some (seg, c2)) :
    nonWS seg ++ nonWS c2.buffer = nonWS c.buffer ∧
    c2.tokenizer = c.tokenizer := by
  by_cases h0 : pyStrip c.buffer = ""
  · simp [StreamingTextChunker.try_extract_chunk, h0] at h
  by_cases hmin : (c.tokenizer.encode (pyStrip c.buffer)).length <
      c.min_tokens ∧ force = false
  · simp [StreamingTextChunker.try_extract_chunk, h0, hmin] at h
  by_cases hmax : (c.tokenizer.encode (pyStrip c.buffer)).length <
      c.max_tokens ∧ force = false
  · by_cases hfast : c.min_tokens ≤
        (c.tokenizer.encode (pyStrip c.buffer)).length ∧
        c.ends_with_sentence_boundary
          (c.tokenizer.encode (pyStrip c.buffer)) = true
    · simp [StreamingTextChunker.try_extract_chunk, h0, hmin, hmax,
        hfast] at h
      obtain ⟨hseg, hc2⟩ := h
      subst hseg
      rw [← hc2]
      refine ⟨?_, rfl⟩
      rw [nonWS_pyStrip]
      show nonWS c.buffer ++ nonWS "" = nonWS c.buffer
      simp [nonWS]
    · simp [StreamingTextChunker.try_extract_chunk, h0, hmin, hmax,
        hfast] at h
  · by_cases hk0 : c.find_best_split
        (c.tokenizer.encode (pyStrip c.buffer)) force = 0
    · by_cases hf : force = true
      · rw [hf] at hk0
        simp [StreamingTextChunker.try_extract_chunk, h0, hf, hk0] at h
        obtain ⟨hseg, hc2⟩ := h
        subst hseg
        rw [← hc2]
        refine ⟨?_, rfl⟩
        rw [nonWS_pyStrip]
        show nonWS c.buffer ++ nonWS "" = nonWS c.buffer
        simp [nonWS]
      · have hforce : force = false := by
          revert hf
          cases force <;> simp
        have hm1 : ¬ (c.tokenizer.encode (pyStrip c.buffer)).length <
            c.min_tokens := fun hc => hmin ⟨hc, hforce⟩
        have hm2 : ¬ (c.tokenizer.encode (pyStrip c.buffer)).length <
            c.max_tokens := fun hc => hmax ⟨hc, hforce⟩
        rw [hforce] at hk0
        simp [StreamingTextChunker.try_extract_chunk, h0, hforce, hm1,
          hm2, hk0] at h
    · simp [StreamingTextChunker.try_extract_chunk, h0, hmin, hmax,
        hk0] at h
      obtain ⟨hseg, hc2⟩ := h
      subst hseg
      rw [← hc2]
      refine ⟨?_, rfl⟩
      rw [nonWS_pyStrip,
        hs (c.tokenizer.encode (pyStrip c.buffer))
          (c.find_best_split (c.tokenizer.encode (pyStrip c.buffer))
            force),
        he (pyStrip c.buffer), nonWS_pyStrip]

/-- The drain loop preserves the non-whitespace characters for any
fuel, and keeps the tokenizer handle. -/
theorem extractGo_nonWS (fuel : Nat) :
    ∀ (c : StreamingTextChunker) (force : Bool),
      DecodeSplitOK c.tokenizer → EncodeDecodeOK c.tokenizer →
      nonWSL (extractGo fuel c force).1 ++
        nonWS (extractGo fuel c force).2.buffer = nonWS c.buffer ∧
      (extractGo fuel c force).2.tokenizer = c.tokenizer := by
  induction fuel with
  | zero =>
    intro c force hs he
    exact ⟨by simp [extractGo, nonWSL], rfl⟩
  | succ n ih =>
    intro c force hs he
    cases htry : c.try_extract_chunk force with
    | none =>
      refine ⟨?_, ?_⟩ <;> simp [extractGo, htry, nonWSL]
    | some p =>
      obtain ⟨ch, c2⟩ := p
      obtain ⟨hpres, htok⟩ := try_extract_chunk_nonWS c force ch c2
        hs he htry
      obtain ⟨ih1, ih2⟩ := ih c2 false (by rw [htok]; exact hs)
        (by rw [htok]; exact he)
      constructor
      · simp only [extractGo, htry]
        have hcons : nonWSL (ch :: (extractGo n c2 false).1) =
            nonWS ch ++ nonWSL (extractGo n c2 false).1 := by
          simp [nonWSL]
        rw [hcons, List.append_assoc, ih1, hpres]
      · simp only [extractGo, htry]
        rw [ih2, htok]

/-- `add_text` preserves the non-whitespace characters: segments
emitted plus the new buffer carry the old buffer plus the fragment. -/
theorem add_text_nonWS (c : StreamingTextChunker) (text : String)
    (fuel : Nat) (hs : DecodeSplitOK c.tokenizer)
    (he : EncodeDecodeOK c.tokenizer) :
    nonWSL (c.add_text text fuel).1 ++
      nonWS (c.add_text text fuel).2.buffer =
      nonWS c.buffer ++ nonWS text ∧
    (c.add_text text fuel).2.tokenizer = c.tokenizer := by
  obtain ⟨h1, h2⟩ := extractGo_nonWS fuel
    { c with buffer := c.buffer ++ text } false hs he
  exact ⟨by rw [StreamingTextChunker.add_text,
    StreamingTextChunker.extract_ready_chunks, h1]; exact nonWS_append _ _,
    h2⟩

/-- `flush` emits exactly the buffered non-whitespace characters and
leaves a whitespace-only buffer. -/
theorem flush_nonWS (c : StreamingTextChunker) (fuel : Nat)
    (hs : DecodeSplitOK c.tokenizer) (he : EncodeDecodeOK c.tokenizer) :
    nonWSL (c.flush fuel).1 = nonWS c.buffer ∧
    nonWS (c.flush fuel).2.buffer = [] := by
  unfold StreamingTextChunker.flush
  by_cases h0 : pyStrip c.buffer = ""
  · rw [if_pos h0]
    exact ⟨(nonWS_of_pyStrip_empty c.buffer h0).symm,
      nonWS_of_pyStrip_empty c.buffer h0⟩
  · rw [if_neg h0]
    simp only [StreamingTextChunker.extract_ready_chunks]
    obtain ⟨h1, _⟩ := extractGo_nonWS fuel c true hs he
    by_cases h3 : pyStrip (extractGo fuel c true).2.buffer = ""
    · rw [if_pos h3]
      have hb := nonWS_of_pyStrip_empty _ h3
      rw [hb, List.append_nil] at h1
      exact ⟨h1, hb⟩
    · rw [if_neg h3]
      constructor
      · have happ : nonWSL ((extractGo fuel c true).1 ++
            [pyStrip (extractGo fuel c true).2.buffer]) =
            nonWSL (extractGo fuel c true).1 ++
              nonWS (pyStrip (extractGo fuel c true).2.buffer) := by
          simp [nonWSL]
        rw [happ, nonWS_pyStrip, h1]
      · show nonWS "" = []
        rfl

/-- A full session preserves the non-whitespace characters: everything
emitted equals the initial buffer plus all fragments. -/
theorem chunkerRun_nonWS (fuel : Nat) (inputs : List String) :
    ∀ c : StreamingTextChunker, DecodeSplitOK c.tokenizer →
      EncodeDecodeOK c.tokenizer →
      nonWSL (chunkerRun fuel c inputs).1 =
        nonWS c.buffer ++ nonWSL inputs := by
  induction inputs with
  | nil =>
    intro c hs he
    have h := (flush_nonWS c fuel hs he).1
    simpa [chunkerRun, nonWSL] using h
  | cons t rest ih =>
    intro c hs he
    obtain ⟨ha, htok⟩ := add_text_nonWS c t fuel hs he
    have ihr := ih (c.add_text t fuel).2 (by rw [htok]; exact hs)
      (by rw [htok]; exact he)
    simp only [chunkerRun]
    have happ : nonWSL ((c.add_text t fuel).1 ++
        (chunkerRun fuel (c.add_text t fuel).2 rest).1) =
        nonWSL (c.add_text t fuel).1 ++
          nonWSL (chunkerRun fuel (c.add_text t fuel).2 rest).1 := by
      simp [nonWSL]
    rw [happ, ihr, ← List.append_assoc, ha]
    have hcons : nonWSL (t :: rest) = nonWS t ++ nonWSL rest := by
      simp [nonWSL]
    rw [hcons, List.append_assoc]

/-- C3: for every tokenizer whose decode loses no non-whitespace
character across slices and round trips (the SentencePiece contract),
every fragment sequence, both token thresholds and any loop fuel, the
segments emitted by `add_text` on each fragment followed by one `flush`
carry, in order, exactly the non-whitespace characters of the
concatenated fragments: no non-whitespace character is dropped or
duplicated, and only boundary whitespace trimming distinguishes the
emitted text from the input. -/
theorem chunker_roundtrip (tk : Tokenizer) (hs : DecodeSplitOK tk)
    (he : EncodeDecodeOK tk) (maxT minT fuel : Nat)
    (inputs : List String) :
    nonWSL (chunkerRun fuel
      { tokenizer := tk, max_tokens := maxT, min_tokens := minT,
        buffer := "" } inputs).1 = nonWSL inputs := by
  have h := chunkerRun_nonWS fuel inputs
    { tokenizer := tk, max_tokens := maxT, min_tokens := minT,
      buffer := "" } hs he
  simpa [nonWS] using h

/-- The character tokenizer splits losslessly. -/
theorem charTokenizer_decodeSplitOK : DecodeSplitOK charTokenizer := by
  intro toks k
  show (List.map Char.ofNat (toks.take k)).filter
      (fun ch => !ch.isWhitespace) ++
    (List.map Char.ofNat (toks.drop k)).filter
      (fun ch => !ch.isWhitespace) =
    (List.map Char.ofNat toks).filter (fun ch => !ch.isWhitespace)
  rw [← List.filter_append, ← List.map_append, List.take_append_drop]

/-- The character tokenizer round trips. -/
theorem charTokenizer_encodeDecodeOK : EncodeDecodeOK charTokenizer := by
  intro s
  show (List.map Char.ofNat (List.map Char.toNat s.data)).filter
      (fun ch => !ch.isWhitespace) =
    s.data.filter (fun ch => !ch.isWhitespace)
  rw [List.map_map]
  have hid : Char.ofNat ∘ Char.toNat = id := funext Char.ofNat_toNat
  rw [hid, List.map_id]

/-- Concrete instantiation of `chunker_roundtrip` with the character
tokenizer on a two-fragment session. -/
theorem chunker_roundtrip_witness :
    DecodeSplitOK charTokenizer ∧ EncodeDecodeOK charTokenizer ∧
    nonWSL (chunkerRun 6
      { tokenizer := charTokenizer, max_tokens := 5, min_tokens := 2,
        buffer := "" } ["ab c. ", "def!"]).1 =
      nonWSL ["ab c. ", "def!"] :=
  ⟨charTokenizer_decodeSplitOK, charTokenizer_encodeDecodeOK,
    chunker_roundtrip charTokenizer charTokenizer_decodeSplitOK
      charTokenizer_encodeDecodeOK 5 2 6 ["ab c. ", "def!"]⟩
